import Mathlib

/-!
Verification of the visibility-scheduling core of the QuadRay engine
(`engine.cpp`, classes `rt_SceneThread` / `rt_Scene`).

The engine's hot paths are shallowly embedded here:

* the list `insert` routine (hierarchy search, the three sorting phases,
  and the light/NULL-surface early return);
* the recursive `filter` flattening routine;
* the per-surface tiling (`tiling`, `RT_UPDATE_TILES_BOUNDS`, `stile`);
* the tile-grid assembly part of `rt_Scene::render`;
* the static work partitioning of `rt_Scene::update_slice`.

Machine `rt_cell` values are modelled as `Int` (no overflow occurs in the
modelled ranges); linked lists become Lean `List`s; in-place pointer
splicing becomes pure list surgery.  The pairwise order predicate
`bbox_sort` and sidedness test `bbox_side` live in `rtgeom.cpp`, outside
the modelled translation unit: they are taken as an opaque comparison
function parameter, constrained (per the spec, section 4.3) to return
order codes 1..4 where needed.  Floating-point quantities are modelled by
`ℚ` where exact formulas are claimed, and by opaque integer-valued
"floor" parameters where only the integer control flow is claimed.
-/

namespace QuadRay

/-! ## Elements of flat candidate lists

`rt_ELEM` for the purposes of the sorting routine: `temp` is the node
payload pointer, `data` the cached order value relative to the element's
current successor.  (`simd`/`next` are represented by list structure.) -/

structure E (α : Type) where
  temp : α
  data : Int
  deriving Repr, DecidableEq

/-! ## C10: insert with a NULL surface (engine.cpp lines 647-668)

`rt_SceneThread::insert(obj, ptr, srf)` with `srf == NULL` allocates and
head-inserts a light element only when `obj` is a light, then returns.
The embedding returns the new list, the returned element and the number
of `alloc` calls performed. -/

/-- A light list element: `data` holds `scene->slist` (all surfaces are
potential shadows), `temp` the light object. -/
structure LgtElem where
  lgt : Nat
  shadowList : List Nat
  deriving Repr, DecidableEq

/-- `insert` when `srf == NULL` (engine.cpp lines 649-668): if `obj` is a
light, a new element is allocated and inserted as list head; otherwise
`elm` stays `RT_NULL` and the function returns it with the list
untouched. -/
def insertNoSrf (objIsLight : Bool) (lgt : Nat) (slist : List Nat)
    (lst : List LgtElem) : List LgtElem × Option LgtElem × Nat :=
  if objIsLight then
    let elm : LgtElem := ⟨lgt, slist⟩
    (elm :: lst, some elm, 1)
  else
    (lst, none, 0)

/-- C10: for every call `insert(obj, ptr, NULL)` where `obj` is not a
light, `insert` allocates no element, leaves the list at `ptr` unchanged,
and returns null. -/
theorem insert_no_srf_non_light (lgt : Nat) (slist : List Nat)
    (lst : List LgtElem) :
    insertNoSrf false lgt slist lst = (lst, none, 0) := by
  simp [insertNoSrf]

/-! ## C4: trnode/bvnode branch resolution (engine.cpp lines 676-724)

When the inserted surface has both a transform-group ancestor
(`arr[0] = srf->trnode`) and a bounding-volume-group ancestor
(`arr[1] = srf->bvnode`), `insert` determines which is outer-most by
walking each node's parent chain, and throws a descriptive
`rt_Exception` when neither is found among the other's parents.  A group
node is modelled by its identity and the identities on its parent chain
(the chain is finite and acyclic in any well-formed scene graph). -/

structure ANode where
  id : Nat
  parents : List Nat
  deriving Repr, DecidableEq

/-- The `k` (outer-most node index) computation of `insert`
(engine.cpp lines 689-734), over the optional trnode (`arr0`) and bvnode
(`arr1`): equal arrays select the bvnode (`k = 1`); otherwise the loop
searches `arr[1-i]`'s parent chain for `arr[i]` with `i = 0` first; if
neither search succeeds the descriptive exception is thrown.  With only
one node present, that node is selected; with none, no `k` is chosen. -/
def insertNodeOrder (arr0 arr1 : Option ANode) : Except String (Option Nat) :=
  match arr0, arr1 with
  | some a0, some a1 =>
    if a0.id = a1.id then .ok (some 1)
    else if a0.id ∈ a1.parents then .ok (some 0)
    else if a1.id ∈ a0.parents then .ok (some 1)
    else .error "trnode/bvnode are not on the same branch"
  | some _, none => .ok (some 0)
  | none, some _ => .ok (some 1)
  | none, none => .ok none

/-- C4: with both a transform-group ancestor and a distinct
bounding-volume-group ancestor present, `insert` raises its descriptive
fatal exception if and only if neither array is found on the other's
parent chain; when the two ancestors are the same array no error is
raised and the bounding-volume node (`k = 1`) is selected as
outer-most. -/
theorem insert_node_order_spec (a0 a1 : ANode) :
    (a0.id ≠ a1.id →
      (insertNodeOrder (some a0) (some a1) =
          .error "trnode/bvnode are not on the same branch" ↔
        ¬(a0.id ∈ a1.parents ∨ a1.id ∈ a0.parents))) ∧
    (a0.id = a1.id → insertNodeOrder (some a0) (some a1) = .ok (some 1)) := by
  constructor
  · intro hne
    constructor
    · intro herr
      simp only [insertNodeOrder, if_neg hne] at herr
      by_cases h0 : a0.id ∈ a1.parents
      · simp [h0] at herr
      · by_cases h1 : a1.id ∈ a0.parents
        · simp [h0, h1] at herr
        · exact fun hc => hc.elim h0 h1
    · intro hnot
      push_neg at hnot
      simp [insertNodeOrder, hne, hnot.1, hnot.2]
  · intro heq
    simp [insertNodeOrder, heq]

/-- Witness for C4 at concrete inputs: two distinct nodes, neither on the
other's parent chain, produce the descriptive exception. -/
theorem insert_node_order_spec_witness :
    insertNodeOrder (some ⟨5, [1, 2]⟩) (some ⟨6, [2, 3]⟩) =
      .error "trnode/bvnode are not on the same branch" :=
  ((insert_node_order_spec ⟨5, [1, 2]⟩ ⟨6, [2, 3]⟩).1 (by decide)).mpr
    (by decide)

/-! ## C8: static partitioning of update_slice (engine.cpp lines 2185-2231)

`rt_Scene::update_slice(index, phase)` walks the scene's surface list
with a running counter `i` and, in both phase 1 and phase 2, processes
exactly the surfaces with `i % thnum == index`.  The embedding returns
the processed `(position, surface)` pairs. -/

/-- The surfaces processed by `update_slice(index, phase)`: in phases 1
and 2 the loop skips every surface whose position does not satisfy
`i % thnum == index`; other phases process nothing. -/
def update_slice (phase thnum index : Nat) (srfs : List α) : List (Nat × α) :=
  if phase = 1 ∨ phase = 2 then
    srfs.enum.filter (fun p => p.1 % thnum = index)
  else
    []

/-- C8: for every update phase in {1, 2} and worker count `thnum ≥ 1`,
each surface position is processed by exactly one worker index below
`thnum`, so the union over workers covers every surface exactly once. -/
theorem update_slice_partition (phase thnum : Nat)
    (hph : phase = 1 ∨ phase = 2) (hth : 1 ≤ thnum) (srfs : List α)
    (i : Nat) (hi : i < srfs.length) :
    ∃! w, w < thnum ∧
      (i, srfs.get ⟨i, hi⟩) ∈ update_slice phase thnum w srfs := by
  refine ⟨i % thnum, ⟨Nat.mod_lt _ hth, ?_⟩, ?_⟩
  · simp only [update_slice, if_pos hph]
    refine List.mem_filter.mpr ⟨?_, by simp⟩
    have : srfs.enum.get ⟨i, by simpa using hi⟩ = (i, srfs.get ⟨i, hi⟩) := by
      simp [List.getElem_enum]
    rw [← this]
    exact List.get_mem _ _ _
  · rintro w ⟨-, hmem⟩
    simp only [update_slice, if_pos hph] at hmem
    have := (List.mem_filter.mp hmem).2
    simp only [decide_eq_true_eq] at this
    exact this.symm

/-- Witness for C8: with 2 workers and 3 surfaces, position 1 is covered
by exactly one worker. -/
theorem update_slice_partition_witness :
    ∃! w, w < 2 ∧
      (1, (10 : Nat)) ∈ update_slice 1 2 w [5, 10, 15] :=
  update_slice_partition 1 2 (Or.inl rfl) (by norm_num) [5, 10, 15] 1
    (by norm_num)

/-! ## Integer ranges

`for (t = a; t <= b; t++)` loops over `rt_cell` (signed) bounds. -/

/-- The integers `a, a+1, ..., b` (empty when `b < a`). -/
def intRange (a b : Int) : List Int :=
  if a ≤ b then a :: intRange (a + 1) b else []
termination_by (b + 1 - a).toNat
decreasing_by simp_wf; omega

theorem intRange_eq_nil {a b : Int} (h : b < a) : intRange a b = [] := by
  rw [intRange]
  simp [not_le.mpr h]

theorem intRange_eq_cons {a b : Int} (h : a ≤ b) :
    intRange a b = a :: intRange (a + 1) b := by
  rw [intRange]
  simp [h]

theorem mem_intRange {a b x : Int} : x ∈ intRange a b ↔ a ≤ x ∧ x ≤ b := by
  induction a, b using intRange.induct with
  | case1 a b h ih =>
    rw [intRange_eq_cons h]
    simp only [List.mem_cons, ih]
    omega
  | case2 a b h =>
    rw [intRange_eq_nil (by omega)]
    simp
    omega

theorem intRange_length (a b : Int) :
    (intRange a b).length = (b + 1 - a).toNat := by
  induction a, b using intRange.induct with
  | case1 a b h ih =>
    rw [intRange_eq_cons h]
    simp only [List.length_cons, ih]
    omega
  | case2 a b h =>
    rw [intRange_eq_nil (by omega)]
    simp
    omega

theorem intRange_nodup (a b : Int) : (intRange a b).Nodup := by
  induction a, b using intRange.induct with
  | case1 a b h ih =>
    rw [intRange_eq_cons h]
    refine List.nodup_cons.mpr ⟨?_, ih⟩
    intro hmem
    rw [mem_intRange] at hmem
    omega
  | case2 a b h =>
    rw [intRange_eq_nil (by omega)]
    exact List.nodup_nil

theorem length_flatMap_const {α β : Type} (l : List α) (f : α → List β)
    (c : Nat) (h : ∀ i ∈ l, (f i).length = c) :
    (l.flatMap f).length = l.length * c := by
  induction l with
  | nil => simp
  | cons x xs ih =>
    simp only [List.flatMap_cons, List.length_append, List.length_cons]
    rw [h x (List.mem_cons_self x xs), ih (fun i hi => h i (List.mem_cons_of_mem x hi))]
    ring

/-! ## C5: stile with zero bounding vertices (engine.cpp lines 1321-1347)

When `srf->verts_num == 0`, `stile` marks all tiles:
`txmin[i] = 0; txmax[i] = tiles_in_row - 1` for every row `i`, and the
fill loop then emits, for rows `i = 0 .. tiles_in_col-1` and columns
`j = txmin[i] .. txmax[i]`, one element with `data = i << 16 | j`.
For `0 ≤ j < 2^16` the packed word `i << 16 | j` equals
`i * 65536 + j`. -/

/-- The "fill marked tiles" loop of `stile` (engine.cpp lines 1334-1345):
for each row `i` below `tiles_in_col`, one element per column
`j ∈ [txmin i, txmax i]`, carrying `data = i << 16 | j`. -/
def stileFill (tic : Int) (txmin txmax : Int → Int) : List Int :=
  (intRange 0 (tic - 1)).flatMap
    (fun i => (intRange (txmin i) (txmax i)).map (fun j => i * 65536 + j))

/-- `stile` on a surface with zero bounding vertices: every row's column
interval is the full `[0, tiles_in_row - 1]` range. -/
def stileDegenerate (tir tic : Int) : List Int :=
  stileFill tic (fun _ => 0) (fun _ => tir - 1)

/-- C5: with zero bounding vertices, `stile` emits exactly one element
for every tile of the grid, in row-major order (the whole `i`-th row's
columns `0 .. tiles_in_row-1`, rows in increasing order). -/
theorem stile_degenerate_all_tiles (tir tic : Int)
    (h1 : 1 ≤ tir) (h2 : tir ≤ 65536) :
    stileDegenerate tir tic =
      (intRange 0 (tic - 1)).flatMap
        (fun i => (intRange 0 (tir - 1)).map (fun j => i * 65536 + j)) ∧
    (stileDegenerate tir tic).length = tic.toNat * tir.toNat ∧
    (stileDegenerate tir tic).Nodup ∧
    (∀ d : Int, d ∈ stileDegenerate tir tic ↔
      ∃ i j : Int, 0 ≤ i ∧ i < tic ∧ 0 ≤ j ∧ j < tir ∧ d = i * 65536 + j) := by
  refine ⟨rfl, ?_, ?_, ?_⟩
  · -- length: tic rows of tir columns each
    rw [stileDegenerate, stileFill,
      length_flatMap_const _ _ tir.toNat
        (fun i _ => by rw [List.length_map, intRange_length]; omega),
      intRange_length]
    congr 1
    omega
  · -- nodup: distinct rows yield disjoint codes, columns distinct within a row
    rw [stileDegenerate, stileFill, List.nodup_flatMap]
    refine ⟨fun i _ => (intRange_nodup _ _).map (fun m n h => by omega), ?_⟩
    refine (intRange_nodup 0 (tic - 1)).imp ?_
    intro i1 i2 hne x hx1 hx2
    simp only [Function.onFun] at hx1 hx2 ⊢
    simp only [List.mem_map] at hx1 hx2
    obtain ⟨j1, hj1, rfl⟩ := hx1
    obtain ⟨j2, hj2, heq⟩ := hx2
    rw [mem_intRange] at hj1 hj2
    omega
  · intro d
    simp only [stileDegenerate, stileFill, List.mem_flatMap, List.mem_map]
    constructor
    · rintro ⟨i, hi, j, hj, rfl⟩
      rw [mem_intRange] at hi hj
      exact ⟨i, j, hi.1, by omega, hj.1, by omega, rfl⟩
    · rintro ⟨i, j, h3, h4, h5, h6, rfl⟩
      exact ⟨i, mem_intRange.mpr ⟨h3, by omega⟩, j,
        mem_intRange.mpr ⟨h5, by omega⟩, rfl⟩

/-- Witness for C5 on a concrete 2x2 grid. -/
theorem stile_degenerate_all_tiles_witness :
    (1 : Int) ≤ 2 ∧ (2 : Int) ≤ 65536 ∧
    (stileDegenerate 2 2).length = (2 : Int).toNat * (2 : Int).toNat :=
  ⟨by norm_num, by norm_num,
    (stile_degenerate_all_tiles 2 2 (by norm_num) (by norm_num)).2.1⟩

/-! ## C2: the filter flattening routine (engine.cpp lines 1123-1166)

`rt_SceneThread::filter(obj, ptr)` converts the hierarchical sorted
sublists produced by `insert` back into a single flat list, rewriting
each element in place:

* a surface element gets `data = 0` and `simd = s_srf`;
* an array element's `simd` field (sublist head plus a 2-bit type tag)
  is recursively flattened; the array element then stores in `data` the
  last leaf of its sublist hierarchy together with the tag bits, splices
  the flattened sublist after itself, and overwrites `simd` with its own
  `s_srf`; traversal continues after the spliced sublist;
* any other node kind (lights appear in light lists) is left untouched.

The `simd` field is a union of "sublist head + tag" and "device
descriptor pointer"; it is modelled by `FPayload`.  The `data` field is
a union of an order code and a "last leaf + tag" word; it is modelled by
`FData`.  Two behaviours of the C code have no defined result and are
modelled as `none` (failure):

* recursing into an array element whose payload is not a sublist (the
  code follows `nd->s_srf` as if it were an element list);
* an array sublist whose flattening yields no last leaf (the code
  dereferences the `RT_NULL` return value).
-/

inductive NodeKind where
  | surface
  | array
  | light
  deriving Repr, DecidableEq

inductive FData where
  | code (c : Int)
  | leafPtr (eid : Nat) (tag : Nat)
  deriving Repr, DecidableEq

mutual

inductive FElem where
  | mk : Nat → NodeKind → FData → FPayload → FElem

inductive FPayload where
  | pnull : FPayload
  | sublist : Nat → List FElem → FPayload
  | ssrf : FPayload

end

def FElem.eid : FElem → Nat
  | .mk i _ _ _ => i

def FElem.kind : FElem → NodeKind
  | .mk _ k _ _ => k

/-- The recursive body of `filter`: returns the flattened list and the
last leaf element (the function's return value), or `none` on the
undefined behaviours described above. -/
def filterGo : List FElem → Option (List FElem × Option FElem)
  | [] => some ([], none)
  | .mk eid kind dta pay :: rest =>
    match kind with
    | .surface =>
      match filterGo rest with
      | none => none
      | some (fr, last) =>
        let e' := FElem.mk eid .surface (.code 0) .ssrf
        some (e' :: fr, last <|> some e')
    | .array =>
      match pay with
      | .sublist tag sub =>
        match filterGo sub with
        | none => none
        | some (_, none) => none
        | some (subF, some ll) =>
          match filterGo rest with
          | none => none
          | some (fr, last) =>
            let e' := FElem.mk eid .array (.leafPtr ll.eid tag) .ssrf
            some (e' :: (subF ++ fr), last <|> some ll)
      | _ => none
    | .light =>
      match filterGo rest with
      | none => none
      | some (fr, last) => some (.mk eid kind dta pay :: fr, last)

/-- The in-place rewrite `filter` applies to a surface element. -/
def cleanElem (e : FElem) : FElem :=
  .mk e.eid e.kind (.code 0) .ssrf

/-- C2 counterexample: on a list holding one transform-group element with
a one-surface sublist, the first `filter` flattens; the second call
reaches the array branch again (the node is still an array) but the
element's payload is now its device descriptor, not a sublist, so the
second call is not a no-op: `filter(filter(x)) ≠ filter(x)`. -/
theorem filter_not_idempotent :
    filterGo [.mk 0 .array (.code 0)
        (.sublist 1 [.mk 1 .surface (.code 3) .pnull])] =
      some ([.mk 0 .array (.leafPtr 1 1) .ssrf,
             .mk 1 .surface (.code 0) .ssrf],
        some (.mk 1 .surface (.code 0) .ssrf)) ∧
    filterGo [.mk 0 .array (.leafPtr 1 1) .ssrf,
              .mk 1 .surface (.code 0) .ssrf] = none := by
  constructor
  · simp [filterGo, FElem.eid]
  · simp [filterGo]

/-- C2 amended: on candidate lists whose elements are all surfaces (no
group sub-lists), `filter` succeeds and a second call is a no-op. -/
theorem filter_idempotent_on_surface_lists (l : List FElem)
    (h : ∀ e ∈ l, e.kind = .surface) :
    (filterGo l).map Prod.fst = some (l.map cleanElem) ∧
    filterGo (l.map cleanElem) = filterGo l := by
  induction l with
  | nil => simp [filterGo]
  | cons e rest ih =>
    obtain ⟨eid, kind, dta, pay⟩ := e
    have hk : kind = .surface := h _ (List.mem_cons_self _ _)
    subst hk
    obtain ⟨ih1, ih2⟩ := ih (fun x hx => h x (List.mem_cons_of_mem _ hx))
    match hrec : filterGo rest with
    | none => simp [hrec] at ih1
    | some (fr, last) =>
      have hfr : fr = rest.map cleanElem := by
        rw [hrec] at ih1
        simpa using ih1
      rw [hrec] at ih2
      constructor
      · simp [filterGo, hrec, hfr, cleanElem, FElem.eid, FElem.kind]
      · simp only [List.map_cons, cleanElem, FElem.eid, FElem.kind, filterGo,
          hrec, ih2, hfr]

/-- Witness for the amended C2 on a concrete two-surface list. -/
theorem filter_idempotent_on_surface_lists_witness :
    (filterGo [.mk 4 .surface (.code 3) .pnull,
               .mk 7 .surface (.code 0) .pnull]).map Prod.fst =
      some ([FElem.mk 4 .surface (.code 3) .pnull,
             FElem.mk 7 .surface (.code 0) .pnull].map cleanElem) ∧
    filterGo ([FElem.mk 4 .surface (.code 3) .pnull,
               FElem.mk 7 .surface (.code 0) .pnull].map cleanElem) =
      filterGo [.mk 4 .surface (.code 3) .pnull,
                .mk 7 .surface (.code 0) .pnull] :=
  filter_idempotent_on_surface_lists _ (by decide)

/-! ## C6: tiling bound updates (engine.cpp lines 461-487 and 570-638)

`rt_SceneThread::tiling(p1, p2)` rasterizes one projected bbox edge into
the per-row column bound arrays `txmin`/`txmax` via the macro
`RT_UPDATE_TILES_BOUNDS`.  The integer control flow (floors of the
endpoints, row clamping, which rows are written) is embedded exactly;
the floating-point x-intercept walk `px += rt` is abstracted by an
arbitrary integer-valued function `fx` giving the floored walk value at
each row, which the claim's properties do not depend on. -/

/-- The per-row bound arrays (`txmin[cy]`, `txmax[cy]`). -/
structure TileBuf where
  txmin : Int → Int
  txmax : Int → Int

/-- One branch of the `RT_UPDATE_TILES_BOUNDS` macro: update `txmin[cy]`
against `lo` (clamped below by `xmin`) and `txmax[cy]` against `hi`
(clamped above by `xmax`). -/
def updBoundsHalf (xmin xmax : Int) (s : TileBuf) (cy lo hi : Int) : TileBuf :=
  let s1 := if lo < s.txmin cy then
    { s with txmin := fun r => if r = cy then max lo xmin else s.txmin r }
    else s
  if s1.txmax cy < hi then
    { s1 with txmax := fun r => if r = cy then min hi xmax else s1.txmax r }
    else s1

/-- `RT_UPDATE_TILES_BOUNDS(cy, x1, x2)` (engine.cpp lines 461-487):
widen row `cy`'s interval by the smaller/larger of `x1`, `x2`, clamping
any newly recorded bound by `xmin`/`xmax`. -/
def RT_UPDATE_TILES_BOUNDS (xmin xmax : Int) (s : TileBuf)
    (cy x1 x2 : Int) : TileBuf :=
  if x1 < x2 then
    updBoundsHalf xmin xmax s cy x1 x2
  else
    updBoundsHalf xmin xmax s cy x2 x1

/-- The sequence of `RT_UPDATE_TILES_BOUNDS` calls `(cy, x1, x2)` made by
one iteration of `tiling`'s per-line loop (engine.cpp lines 576-638), on
the floored endpoints `(x1, y1)-(x2, y2)` with `y1`'s point on top.
`rtZero` is the `rt == 0.0f` near-degenerate/axis-aligned test; `fx t`
is the floored float walk value `RT_FLOOR(px)` associated with row `t`
(with `fx (a - 1)` the pre-loop value). -/
def tilingLine (xmin xmax ymin ymax : Int) (rtZero : Bool)
    (x1 y1 x2 y2 : Int) (fx : Int → Int) : List (Int × Int × Int) :=
  if y1 > ymax ∨ y2 < ymin then
    []
  else if (x1 = x2 ∨ y1 = y2 ∨ rtZero = true) ∨ (x1 < xmin ∧ x2 < xmin) ∨
      (x1 > xmax ∧ x2 > xmax) then
    let a := if y1 < ymin then ymin else y1
    let b := if y2 > ymax then ymax else y2
    (intRange a b).map (fun t => (t, x1, x2))
  else
    let a := if y1 < ymin then ymin else y1 + 1
    let b := if y2 > ymax then ymax else y2 - 1
    let pre := if a > ymin then [(a - 1, x1, fx (a - 1))] else []
    let loopW := (intRange a b).map (fun t => (t, fx (t - 1), fx t))
    let post := if b < ymax then
      [(b + 1, (if a ≤ b then fx b else fx (a - 1)), x2)] else []
    pre ++ loopW ++ post

/-- Apply a sequence of recorded `RT_UPDATE_TILES_BOUNDS` calls. -/
def applyWrites (xmin xmax : Int) (s : TileBuf)
    (ws : List (Int × Int × Int)) : TileBuf :=
  ws.foldl (fun acc w => RT_UPDATE_TILES_BOUNDS xmin xmax acc w.1 w.2.1 w.2.2) s

/-- One half-update: any entry it changes lands inside `[0, xmax]`,
assuming row `cy` satisfies the invariant `txmin ≤ xmax + 1`,
`-1 ≤ txmax`. -/
theorem updBoundsHalf_step (xmax : Int) (hx : 0 ≤ xmax)
    (s : TileBuf) (cy lo hi : Int)
    (hmin : s.txmin cy ≤ xmax + 1) (hmax : -1 ≤ s.txmax cy) (r : Int) :
    ((updBoundsHalf 0 xmax s cy lo hi).txmin r = s.txmin r ∨
      (0 ≤ (updBoundsHalf 0 xmax s cy lo hi).txmin r ∧
        (updBoundsHalf 0 xmax s cy lo hi).txmin r ≤ xmax)) ∧
    ((updBoundsHalf 0 xmax s cy lo hi).txmax r = s.txmax r ∨
      (0 ≤ (updBoundsHalf 0 xmax s cy lo hi).txmax r ∧
        (updBoundsHalf 0 xmax s cy lo hi).txmax r ≤ xmax)) := by
  have hminr : (updBoundsHalf 0 xmax s cy lo hi).txmin r =
      if r = cy ∧ lo < s.txmin cy then max lo 0 else s.txmin r := by
    simp only [updBoundsHalf]
    by_cases h1 : lo < s.txmin cy <;>
      by_cases hr : r = cy <;>
      simp [h1, hr] <;>
      split <;> simp [h1, hr]
  have hmaxr : (updBoundsHalf 0 xmax s cy lo hi).txmax r =
      if r = cy ∧ s.txmax cy < hi then min hi xmax else s.txmax r := by
    simp only [updBoundsHalf]
    by_cases h1 : lo < s.txmin cy <;>
      by_cases h2 : s.txmax cy < hi <;>
      by_cases hr : r = cy <;>
      simp [h1, h2, hr]
  rw [hminr, hmaxr]
  constructor
  · by_cases hc : r = cy ∧ lo < s.txmin cy
    · rw [if_pos hc]
      right
      omega
    · rw [if_neg hc]
      left
      rfl
  · by_cases hc : r = cy ∧ s.txmax cy < hi
    · rw [if_pos hc]
      right
      omega
    · rw [if_neg hc]
      left
      rfl

/-- One bound update preserves the invariant `txmin ≤ xmax + 1`,
`-1 ≤ txmax`, and any entry it changes lands inside `[0, xmax]`. -/
theorem RT_UPDATE_TILES_BOUNDS_step (xmax : Int) (hx : 0 ≤ xmax)
    (s : TileBuf) (hinv : ∀ r, s.txmin r ≤ xmax + 1 ∧ -1 ≤ s.txmax r)
    (cy x1 x2 : Int) :
    (∀ r, (RT_UPDATE_TILES_BOUNDS 0 xmax s cy x1 x2).txmin r ≤ xmax + 1 ∧
      -1 ≤ (RT_UPDATE_TILES_BOUNDS 0 xmax s cy x1 x2).txmax r) ∧
    (∀ r, ((RT_UPDATE_TILES_BOUNDS 0 xmax s cy x1 x2).txmin r = s.txmin r ∨
        (0 ≤ (RT_UPDATE_TILES_BOUNDS 0 xmax s cy x1 x2).txmin r ∧
          (RT_UPDATE_TILES_BOUNDS 0 xmax s cy x1 x2).txmin r ≤ xmax)) ∧
      ((RT_UPDATE_TILES_BOUNDS 0 xmax s cy x1 x2).txmax r = s.txmax r ∨
        (0 ≤ (RT_UPDATE_TILES_BOUNDS 0 xmax s cy x1 x2).txmax r ∧
          (RT_UPDATE_TILES_BOUNDS 0 xmax s cy x1 x2).txmax r ≤ xmax))) := by
  have key : ∀ r, ((RT_UPDATE_TILES_BOUNDS 0 xmax s cy x1 x2).txmin r =
        s.txmin r ∨
      (0 ≤ (RT_UPDATE_TILES_BOUNDS 0 xmax s cy x1 x2).txmin r ∧
        (RT_UPDATE_TILES_BOUNDS 0 xmax s cy x1 x2).txmin r ≤ xmax)) ∧
      ((RT_UPDATE_TILES_BOUNDS 0 xmax s cy x1 x2).txmax r = s.txmax r ∨
        (0 ≤ (RT_UPDATE_TILES_BOUNDS 0 xmax s cy x1 x2).txmax r ∧
          (RT_UPDATE_TILES_BOUNDS 0 xmax s cy x1 x2).txmax r ≤ xmax)) := by
    intro r
    rw [RT_UPDATE_TILES_BOUNDS]
    split
    · exact updBoundsHalf_step xmax hx s cy x1 x2 (hinv cy).1 (hinv cy).2 r
    · exact updBoundsHalf_step xmax hx s cy x2 x1 (hinv cy).1 (hinv cy).2 r
  refine ⟨fun r => ?_, key⟩
  rcases key r with ⟨hmin', hmax'⟩
  have := hinv r
  rcases hmin' with h | h <;> rcases hmax' with h' | h' <;> omega

/-- Folding any write sequence from an invariant-satisfying buffer keeps
the invariant and leaves every entry either untouched or in
`[0, xmax]`. -/
theorem applyWrites_recorded (xmax : Int) (hx : 0 ≤ xmax)
    (ws : List (Int × Int × Int)) (s : TileBuf)
    (hinv : ∀ r, s.txmin r ≤ xmax + 1 ∧ -1 ≤ s.txmax r) :
    (∀ r, (applyWrites 0 xmax s ws).txmin r ≤ xmax + 1 ∧
      -1 ≤ (applyWrites 0 xmax s ws).txmax r) ∧
    (∀ r, ((applyWrites 0 xmax s ws).txmin r = s.txmin r ∨
        (0 ≤ (applyWrites 0 xmax s ws).txmin r ∧
          (applyWrites 0 xmax s ws).txmin r ≤ xmax)) ∧
      ((applyWrites 0 xmax s ws).txmax r = s.txmax r ∨
        (0 ≤ (applyWrites 0 xmax s ws).txmax r ∧
          (applyWrites 0 xmax s ws).txmax r ≤ xmax))) := by
  induction ws generalizing s with
  | nil => exact ⟨hinv, fun r => ⟨Or.inl rfl, Or.inl rfl⟩⟩
  | cons w rest ih =>
    obtain ⟨hinv1, hchg1⟩ :=
      RT_UPDATE_TILES_BOUNDS_step xmax hx s hinv w.1 w.2.1 w.2.2
    obtain ⟨hinv2, hchg2⟩ := ih _ hinv1
    have heq : applyWrites 0 xmax s (w :: rest) =
        applyWrites 0 xmax (RT_UPDATE_TILES_BOUNDS 0 xmax s w.1 w.2.1 w.2.2)
          rest := by
      simp [applyWrites]
    rw [heq]
    refine ⟨hinv2, fun r => ?_⟩
    rcases hchg1 r with ⟨ha1, ha2⟩
    rcases hchg2 r with ⟨hb1, hb2⟩
    constructor
    · rcases hb1 with h | h
      · rw [h]; exact ha1
      · exact Or.inr h
    · rcases hb2 with h | h
      · rw [h]; exact ha2
      · exact Or.inr h

theorem mem_ite_singleton {β : Type} {c : Prop} [Decidable c] {w x : β}
    (h : w ∈ if c then [x] else []) : c ∧ w = x := by
  split at h
  · rename_i hc
    simp only [List.mem_singleton] at h
    exact ⟨hc, h⟩
  · simp at h

/-- Every write performed by one `tiling` line iteration targets a row
inside `[ymin, ymax]`. -/
theorem tilingLine_rows (xmin xmax ymin ymax : Int) (rtZero : Bool)
    (x1 y1 x2 y2 : Int) (fx : Int → Int) :
    ∀ w ∈ tilingLine xmin xmax ymin ymax rtZero x1 y1 x2 y2 fx,
      ymin ≤ w.1 ∧ w.1 ≤ ymax := by
  intro w hw
  rw [tilingLine] at hw
  by_cases hrej : y1 > ymax ∨ y2 < ymin
  · rw [if_pos hrej] at hw
    simp at hw
  · rw [if_neg hrej] at hw
    push_neg at hrej
    obtain ⟨hr1, hr2⟩ := hrej
    split at hw
    · -- axis-aligned / degenerate / x-outer branch: rows clamped directly
      simp only [List.mem_map] at hw
      obtain ⟨t, ht, rfl⟩ := hw
      rw [mem_intRange] at ht
      by_cases hy1 : y1 < ymin <;> by_cases hy2 : y2 > ymax <;>
        simp only [hy1, hy2, if_true, if_false, reduceIte] at ht <;>
        exact ⟨by omega, by omega⟩
    · -- regular line branch: half-step rows guarded by a > ymin / b < ymax
      rcases List.mem_append.mp hw with hA | hpost
      · rcases List.mem_append.mp hA with hpre | hloop
        · obtain ⟨hc, rfl⟩ := mem_ite_singleton hpre
          by_cases hy1 : y1 < ymin <;>
            simp only [hy1, if_true, if_false, reduceIte] at hc ⊢ <;>
            exact ⟨by omega, by omega⟩
        · simp only [List.mem_map] at hloop
          obtain ⟨t, ht, rfl⟩ := hloop
          rw [mem_intRange] at ht
          by_cases hy1 : y1 < ymin <;> by_cases hy2 : y2 > ymax <;>
            simp only [hy1, hy2, if_true, if_false, reduceIte] at ht <;>
            exact ⟨by omega, by omega⟩
      · obtain ⟨hc, rfl⟩ := mem_ite_singleton hpost
        by_cases hy2 : y2 > ymax <;>
          simp only [hy2, if_true, if_false, reduceIte] at hc ⊢ <;>
          exact ⟨by omega, by omega⟩

/-- C6: per-row column bounds safety of `tiling`.  With
`xmin = 0, xmax = tiles_in_row - 1, ymin = 0, ymax = tiles_in_col - 1`
(engine.cpp lines 570-574) and the buffer initialized (or previously
updated) so that `txmin ≤ tiles_in_row` and `txmax ≥ -1`: every write
lands at a row index in `[0, tiles_in_col - 1]`; every recorded column
bound (entry actually changed) lies in `[0, tiles_in_row - 1]`; a
segment whose floored endpoint rows lie entirely above or below the
valid row range performs no writes. -/
theorem tiling_bounds_safe (tir tic : Int) (h1 : 1 ≤ tir) (rtZero : Bool)
    (x1 y1 x2 y2 : Int) (fx : Int → Int) (s : TileBuf)
    (hinv : ∀ r, s.txmin r ≤ tir ∧ -1 ≤ s.txmax r) :
    (∀ w ∈ tilingLine 0 (tir - 1) 0 (tic - 1) rtZero x1 y1 x2 y2 fx,
      0 ≤ w.1 ∧ w.1 ≤ tic - 1) ∧
    (∀ r,
      ((applyWrites 0 (tir - 1) s
          (tilingLine 0 (tir - 1) 0 (tic - 1) rtZero x1 y1 x2 y2 fx)).txmin r
            = s.txmin r ∨
        (0 ≤ (applyWrites 0 (tir - 1) s
            (tilingLine 0 (tir - 1) 0 (tic - 1) rtZero x1 y1 x2 y2 fx)).txmin
              r ∧
          (applyWrites 0 (tir - 1) s
            (tilingLine 0 (tir - 1) 0 (tic - 1) rtZero x1 y1 x2 y2 fx)).txmin
              r ≤ tir - 1)) ∧
      ((applyWrites 0 (tir - 1) s
          (tilingLine 0 (tir - 1) 0 (tic - 1) rtZero x1 y1 x2 y2 fx)).txmax r
            = s.txmax r ∨
        (0 ≤ (applyWrites 0 (tir - 1) s
            (tilingLine 0 (tir - 1) 0 (tic - 1) rtZero x1 y1 x2 y2 fx)).txmax
              r ∧
          (applyWrites 0 (tir - 1) s
            (tilingLine 0 (tir - 1) 0 (tic - 1) rtZero x1 y1 x2 y2 fx)).txmax
              r ≤ tir - 1))) ∧
    ((y1 > tic - 1 ∨ y2 < 0) →
      tilingLine 0 (tir - 1) 0 (tic - 1) rtZero x1 y1 x2 y2 fx = []) := by
  have hinv' : ∀ r, s.txmin r ≤ (tir - 1) + 1 ∧ -1 ≤ s.txmax r := by
    intro r
    have := hinv r
    omega
  refine ⟨tilingLine_rows 0 (tir - 1) 0 (tic - 1) rtZero x1 y1 x2 y2 fx,
    (applyWrites_recorded (tir - 1) (by omega) _ s hinv').2, ?_⟩
  intro h
  rw [tilingLine, if_pos h]

/-- Witness for C6: a segment with both floored rows above a 2x2 grid's
valid row range performs no writes. -/
theorem tiling_bounds_safe_witness :
    tilingLine 0 1 0 1 false 0 5 1 7 (fun _ => 0) = [] :=
  (tiling_bounds_safe 2 2 (by norm_num) false 0 5 1 7 (fun _ => 0)
    ⟨fun _ => 2, fun _ => -1⟩ (fun _ => ⟨le_refl _, le_refl _⟩)).2.2
    (Or.inl (by norm_num))

/-! ## C3: tile-grid assembly (engine.cpp lines 2003-2099)

The screen-tiling part of `rt_Scene::render`: clear the grid, build an
exact reversed copy `stail` of the global surface list by repeated head
insertion, then walk `stail`, head-inserting each surface's tile
elements into the per-tile lists (with a synthetic trnode element reused
or created lazily when the surface belongs to a transform group).  Tile
element words `data = i << 16 | j` (produced by `stile`, here modelled
as `i * 65536 + j`) address grid slot `tline + j = i * tiles_in_row + j`
via `data >> 16` and `data & 0xFFFF`. -/

/-- An entry of the global surface list `slist`: a surface element with
its optional transform-group node and its tile-membership word list, or
an array (trnode) element, which the walk skips. -/
inductive SElem where
  | surfaceE (sid : Nat) (trnode : Option Nat) (tls : List Nat)
  | arrayE (aid : Nat)
  deriving Repr, DecidableEq

/-- An entry of a per-tile list: a surface tile element, or a synthetic
trnode element whose `data` field points at the trnode's last inserted
tile element. -/
inductive GridEntry where
  | srfE (sid : Nat)
  | trnE (aid : Nat) (lastSid : Nat)
  deriving Repr, DecidableEq

/-- Grid slot addressed by a packed tile word. -/
def keyOf (tilesInRow d : Nat) : Nat :=
  d / 65536 * tilesInRow + d % 65536

/-- Insert one surface's tile elements into the grid (the per-`tls` loop
of engine.cpp lines 2039-2099): head insertion, except that when the
surface has a trnode and the tile's current head is that trnode's
element, the tile element is inserted directly under it. -/
def insertSrfTiles (tilesInRow sid : Nat) (trn : Option Nat)
    (tls : List Nat) (g : Nat → List GridEntry) : Nat → List GridEntry :=
  tls.foldl (fun g d =>
    let key := keyOf tilesInRow d
    match trn with
    | some a =>
      match g key with
      | .trnE a' last :: rest =>
        if a' = a then
          fun k => if k = key then .trnE a' last :: .srfE sid :: rest
            else g k
        else
          fun k => if k = key then .trnE a sid :: .srfE sid :: g key
            else g k
      | _ =>
        fun k => if k = key then .trnE a sid :: .srfE sid :: g key else g k
    | none =>
      fun k => if k = key then .srfE sid :: g key else g k) g

/-- The walk over the reversed surface list (engine.cpp lines
2024-2100): arrays are skipped, surfaces insert their tile elements. -/
def assembleWalk (tilesInRow : Nat) (g : Nat → List GridEntry)
    (stail : List SElem) : Nat → List GridEntry :=
  stail.foldl (fun g e =>
    match e with
    | .arrayE _ => g
    | .surfaceE sid trn tls => insertSrfTiles tilesInRow sid trn tls g) g

/-- The full tiling assembly of `rt_Scene::render` (lines 2003-2100):
clear the grid, build the reversed copy of `slist` by head insertion,
then walk it. -/
def render_assemble (tilesInRow : Nat) (slist : List SElem) :
    Nat → List GridEntry :=
  assembleWalk tilesInRow (fun _ => [])
    (slist.foldl (fun acc e => e :: acc) [])

/-- The surface ids in a tile list, in list order. -/
def surfacesOf (l : List GridEntry) : List Nat :=
  l.filterMap (fun e =>
    match e with
    | .srfE s => some s
    | .trnE _ _ => none)

/-- Whether a surface-list entry has a tile element addressing `key`. -/
def touchesKey (tilesInRow key : Nat) (e : SElem) : Bool :=
  match e with
  | .arrayE _ => false
  | .surfaceE _ _ tls => tls.any (fun d => keyOf tilesInRow d = key)

/-- The surface id of a surface-list entry. -/
def sidOf (e : SElem) : Option Nat :=
  match e with
  | .surfaceE sid _ _ => some sid
  | .arrayE _ => none

theorem foldl_cons_acc {α : Type} (l acc : List α) :
    l.foldl (fun a e => e :: a) acc = l.reverse ++ acc := by
  induction l generalizing acc with
  | nil => simp
  | cons x xs ih => simp [List.foldl_cons, ih]

/-- Inserting one surface's tiles prepends its id once per matching tile
word, in every trnode branch. -/
theorem surfacesOf_insertSrfTiles (tilesInRow sid : Nat)
    (trn : Option Nat) (tls : List Nat) (g : Nat → List GridEntry)
    (key : Nat) :
    surfacesOf (insertSrfTiles tilesInRow sid trn tls g key) =
      List.replicate ((tls.map (keyOf tilesInRow)).count key) sid ++
        surfacesOf (g key) := by
  induction tls generalizing g with
  | nil => simp [insertSrfTiles]
  | cons d rest ih =>
    have hstep : insertSrfTiles tilesInRow sid trn (d :: rest) g =
        insertSrfTiles tilesInRow sid trn rest
          (fun k =>
            (insertSrfTiles tilesInRow sid trn [d] g) k) := by
      simp [insertSrfTiles]
    rw [hstep, ih]
    have hone : surfacesOf ((insertSrfTiles tilesInRow sid trn [d] g) key) =
        (if keyOf tilesInRow d = key then [sid] else []) ++
          surfacesOf (g key) := by
      simp only [insertSrfTiles, List.foldl_cons, List.foldl_nil]
      by_cases hk : keyOf tilesInRow d = key
      · subst hk
        rw [if_pos rfl]
        cases trn with
        | none => simp [surfacesOf]
        | some a =>
          cases hg : g (keyOf tilesInRow d) with
          | nil => simp [hg, surfacesOf]
          | cons e0 rest0 =>
            cases e0 with
            | srfE s => simp [hg, surfacesOf]
            | trnE a' last =>
              by_cases ha : a' = a <;>
                simp [hg, ha, surfacesOf]
      · have hk' : ¬(key = keyOf tilesInRow d) := fun h => hk h.symm
        cases trn with
        | none => simp [hk, hk']
        | some a =>
          cases hg : g (keyOf tilesInRow d) with
          | nil => simp [hk, hk', hg]
          | cons e0 rest0 =>
            cases e0 with
            | srfE s => simp [hk, hk', hg]
            | trnE a' last =>
              by_cases ha : a' = a <;> simp [hk, hk', hg, ha]
    rw [hone]
    by_cases hk : keyOf tilesInRow d = key
    · have hcnt : ((d :: rest).map (keyOf tilesInRow)).count key =
          (rest.map (keyOf tilesInRow)).count key + 1 := by
        simp [List.count_cons, hk]
      rw [hcnt, List.replicate_succ']
      simp [hk, List.append_assoc]
    · have hcnt : ((d :: rest).map (keyOf tilesInRow)).count key =
          (rest.map (keyOf tilesInRow)).count key := by
        simp [List.count_cons, hk]
      rw [hcnt]
      simp [hk]

/-- The walk prepends each processed element's block, so the final list
reads the processed elements in reverse processing order. -/
theorem surfacesOf_assembleWalk (tilesInRow : Nat)
    (stail : List SElem) (g : Nat → List GridEntry) (key : Nat) :
    surfacesOf (assembleWalk tilesInRow g stail key) =
      (stail.reverse.flatMap (fun e =>
        match e with
        | .arrayE _ => []
        | .surfaceE sid _ tls =>
          List.replicate ((tls.map (keyOf tilesInRow)).count key) sid)) ++
        surfacesOf (g key) := by
  induction stail generalizing g with
  | nil => simp [assembleWalk]
  | cons e rest ih =>
    have hstep : assembleWalk tilesInRow g (e :: rest) =
        assembleWalk tilesInRow
          (match e with
           | .arrayE _ => g
           | .surfaceE sid trn tls => insertSrfTiles tilesInRow sid trn tls g)
          rest := by
      simp [assembleWalk]
    rw [hstep, ih]
    cases e with
    | arrayE aid => simp
    | surfaceE sid trn tls =>
      rw [surfacesOf_insertSrfTiles]
      simp [List.append_assoc]

/-- C3: tile-grid assembly preserves forward list order.  For every
grid slot, the surface ids of the assembled per-tile list are exactly
the surfaces of the forward `slist` whose tile lists address that slot,
in forward list order (each surface's tile words address distinct
slots, as produced by `stile`). -/
theorem render_assemble_order (tilesInRow : Nat) (slist : List SElem)
    (key : Nat)
    (hnd : ∀ e ∈ slist, ∀ sid trn tls, e = .surfaceE sid trn tls →
      (tls.map (keyOf tilesInRow)).Nodup) :
    surfacesOf (render_assemble tilesInRow slist key) =
      (slist.filter (touchesKey tilesInRow key)).filterMap sidOf := by
  rw [render_assemble, foldl_cons_acc, List.append_nil,
    surfacesOf_assembleWalk, List.reverse_reverse]
  simp only [surfacesOf, List.filterMap_nil, List.append_nil]
  induction slist with
  | nil => simp
  | cons e rest ih =>
    have ih' := ih (fun x hx => hnd x (List.mem_cons_of_mem _ hx))
    rw [List.flatMap_cons, List.filter_cons]
    cases e with
    | arrayE aid =>
      simp only [touchesKey]
      rw [if_neg (by simp)]
      simpa using ih'
    | surfaceE sid trn tls =>
      have hnodup := hnd _ (List.mem_cons_self _ _) sid trn tls rfl
      by_cases ht : touchesKey tilesInRow key (.surfaceE sid trn tls) = true
      · rw [if_pos ht]
        have hcount : (tls.map (keyOf tilesInRow)).count key = 1 := by
          have hmem : key ∈ tls.map (keyOf tilesInRow) := by
            simp only [touchesKey, List.any_eq_true] at ht
            obtain ⟨d, hd, hk⟩ := ht
            simp only [decide_eq_true_eq] at hk
            exact List.mem_map.mpr ⟨d, hd, hk⟩
          exact List.count_eq_one_of_mem hnodup hmem
        dsimp only
        rw [hcount, ih']
        simp [sidOf]
      · rw [if_neg ht]
        have hcount : (tls.map (keyOf tilesInRow)).count key = 0 := by
          rw [List.count_eq_zero]
          intro hmem
          obtain ⟨d, hd, hk⟩ := List.mem_map.mp hmem
          exact ht (by simp only [touchesKey, List.any_eq_true]
                       exact ⟨d, hd, by simp [hk]⟩)
        dsimp only
        rw [hcount, ih']
        simp

/-- Witness for C3: three surfaces touching the same single tile come
out in forward order `[1, 2, 3]`, not reversed. -/
theorem render_assemble_order_witness :
    surfacesOf (render_assemble 1
      [.surfaceE 1 none [0], .surfaceE 2 none [0], .surfaceE 3 none [0]]
      0) =
      ([SElem.surfaceE 1 none [0], .surfaceE 2 none [0],
        .surfaceE 3 none [0]].filter (touchesKey 1 0)).filterMap sidOf :=
  render_assemble_order 1 _ 0 (by
    intro e he sid trn tls heq
    subst heq
    fin_cases he <;> simp [keyOf])

/-! ## C7: near-plane clipping in stile (engine.cpp lines 1196-1319)

`stile` projects the bbox vertices onto the tilebuffer, tagging each
vertex `+1` (in front of the screen plane), `0` (near) or `-1` (behind),
then processes each bbox edge: edges with both tags `≤ 0` are skipped;
for an edge with one vertex in front (`> 0`) and one behind (`< 0`), the
behind vertex is replaced by a vertex synthesized at the screen-plane
crossing, by linear interpolation along the edge with factor
`zed[j] / (zed[j] - zed[i])`.  The float arithmetic is modelled exactly
over `ℚ` (in `ℚ`, `x / 0 = 0`; the code guards the divisors by
`RT_CLIP_THRESHOLD`). -/

structure Vec3 where
  x : ℚ
  y : ℚ
  z : ℚ
  deriving Repr, DecidableEq

def add3 (a b : Vec3) : Vec3 := ⟨a.x + b.x, a.y + b.y, a.z + b.z⟩

def sub3 (a b : Vec3) : Vec3 := ⟨a.x - b.x, a.y - b.y, a.z - b.z⟩

def smul3 (t : ℚ) (a : Vec3) : Vec3 := ⟨t * a.x, t * a.y, t * a.z⟩

def div3 (a : Vec3) (t : ℚ) : Vec3 := ⟨a.x / t, a.y / t, a.z / t⟩

def dot3 (a b : Vec3) : ℚ := a.x * b.x + a.y * b.y + a.z * b.z

/-- The scene fields used by `stile`'s projection: origin and normal of
the screen plane (`org`, `nrm`), camera position `pos`, screen direction
`dir`, tile-space basis covectors `htl`/`vtl`, the `pov` factor and the
clipping threshold `RT_CLIP_THRESHOLD`. -/
structure SceneView where
  org : Vec3
  pos : Vec3
  dir : Vec3
  nrm : Vec3
  htl : Vec3
  vtl : Vec3
  pov : ℚ
  clipThr : ℚ

/-- A processed bbox vertex as stored in the `verts` scratch buffer:
projected tile-space `px`, `py`, plane distance `pz` (`pos[RT_Z]`), and
the tag `pw` (`pos[RT_W]`): `+1` in front, `0` near, `-1` behind. -/
structure PVert where
  px : ℚ
  py : ℚ
  pz : ℚ
  pw : ℚ
  deriving Repr, DecidableEq

/-- The per-vertex pass of `stile` (engine.cpp lines 1208-1253): the
plane distance is stored in `pz`; vertices in front of or near the
screen plane are projected into tile space, near vertices also emit a
copy into the scratch tail (second component); behind vertices keep
their zeroed scratch position and the `-1` tag. -/
def processVertex (sc : SceneView) (p : Vec3) : PVert × Option (ℚ × ℚ) :=
  let d := dot3 (sub3 p sc.org) sc.nrm
  if d ≥ 0 ∨ |d| ≤ sc.clipThr then
    let v1 := sub3 p sc.pos
    let d2 := dot3 v1 sc.nrm / sc.pov
    let v2 := sub3 (div3 v1 d2) sc.dir
    let X := dot3 v2 sc.htl
    let Y := dot3 v2 sc.vtl
    if d < 0 then (⟨X, Y, d, 0⟩, some (X, Y)) else (⟨X, Y, d, 1⟩, none)
  else
    (⟨0, 0, d, -1⟩, none)

/-- The clip-vertex synthesis of `stile` (engine.cpp lines 1285-1302):
`vec = (vrt[i] - vrt[j]) * (zed[j] / (zed[j] - zed[i])) + vrt[j] - org`,
projected by `htl`/`vtl`. -/
def clipPoint (sc : SceneView) (pi pj : Vec3) (zi zj : ℚ) : ℚ × ℚ :=
  let v := smul3 (zj / (zj - zi)) (sub3 pi pj)
  let v2 := add3 v (sub3 pj sc.org)
  (dot3 v2 sc.htl, dot3 v2 sc.vtl)

/-- The per-edge pass of `stile` (engine.cpp lines 1256-1310): skip the
edge when both vertex tags are `≤ 0`; otherwise replace each behind
(`< 0`) vertex by the synthesized clip vertex and emit the `tiling`
call's two tile-space points. -/
def processEdge (sc : SceneView) (orig : Nat → Vec3) (pv : Nat → PVert)
    (i0 i1 : Nat) : Option ((ℚ × ℚ) × (ℚ × ℚ)) :=
  if (pv i0).pw ≤ 0 ∧ (pv i1).pw ≤ 0 then
    none
  else
    some
      ((if (pv i0).pw ≥ 0 then ((pv i0).px, (pv i0).py)
        else clipPoint sc (orig i0) (orig i1) (pv i0).pz (pv i1).pz),
       (if (pv i1).pw ≥ 0 then ((pv i1).px, (pv i1).py)
        else clipPoint sc (orig i1) (orig i0) (pv i1).pz (pv i0).pz))

/-- Modelled from the spec (section 4.2): the point at parameter `t` of
the segment from `a` to `b`, `a + t * (b - a)`. -/
def lerpPoint (a b : Vec3) (t : ℚ) : Vec3 :=
  add3 a (smul3 t (sub3 b a))

/-- Modelled from the spec (section 4.2): tile-space projection of a
world point relative to the screen origin. -/
def projectTile (sc : SceneView) (p : Vec3) : ℚ × ℚ :=
  (dot3 (sub3 p sc.org) sc.htl, dot3 (sub3 p sc.org) sc.vtl)

/-- The synthesized clip vertex is exactly the linear interpolation of
the original edge endpoints with factor `zj / (zj - zi)`, measured from
the `j` (kept) endpoint toward the `i` (behind) endpoint. -/
theorem clipPoint_eq_lerp (sc : SceneView) (pi pj : Vec3) (zi zj : ℚ) :
    clipPoint sc pi pj zi zj =
      projectTile sc (lerpPoint pj pi (zj / (zj - zi))) := by
  simp only [clipPoint, projectTile, lerpPoint, add3, sub3, smul3, dot3]
  rw [Prod.mk.injEq]
  constructor <;> ring

/-- C7: an edge with both endpoints tagged behind or near contributes no
tiling call; an edge with one endpoint in front and one behind uses, for
the behind endpoint, the clip vertex synthesized by linear interpolation
with factor `zed[j] / (zed[j] - zed[i])`, and for the front endpoint its
stored projected position - never the behind vertex's stored
position. -/
theorem stile_edge_clipping (sc : SceneView) (orig : Nat → Vec3)
    (pv : Nat → PVert) (i0 i1 : Nat) :
    ((pv i0).pw ≤ 0 → (pv i1).pw ≤ 0 →
      processEdge sc orig pv i0 i1 = none) ∧
    ((pv i0).pw < 0 → 0 < (pv i1).pw →
      processEdge sc orig pv i0 i1 =
        some (projectTile sc (lerpPoint (orig i1) (orig i0)
                ((pv i1).pz / ((pv i1).pz - (pv i0).pz))),
              ((pv i1).px, (pv i1).py))) ∧
    (0 < (pv i0).pw → (pv i1).pw < 0 →
      processEdge sc orig pv i0 i1 =
        some (((pv i0).px, (pv i0).py),
              projectTile sc (lerpPoint (orig i0) (orig i1)
                ((pv i0).pz / ((pv i0).pz - (pv i1).pz))))) := by
  refine ⟨?_, ?_, ?_⟩
  · intro h0 h1
    rw [processEdge, if_pos ⟨h0, h1⟩]
  · intro h0 h1
    rw [processEdge, if_neg (by intro h; exact absurd h.2 (by linarith)),
      if_neg (by linarith), if_pos (by linarith), clipPoint_eq_lerp]
  · intro h0 h1
    rw [processEdge, if_neg (by intro h; exact absurd h.1 (by linarith)),
      if_pos (by linarith), if_neg (by linarith), clipPoint_eq_lerp]

/-- Witness for C7 at a concrete edge: endpoint 0 behind, endpoint 1 in
front. -/
theorem stile_edge_clipping_witness :
    processEdge
      ⟨⟨0, 0, 0⟩, ⟨0, 0, -1⟩, ⟨0, 0, 1⟩, ⟨0, 0, 1⟩, ⟨1, 0, 0⟩, ⟨0, 1, 0⟩,
        1, 1/100⟩
      (fun i => if i = 0 then ⟨2, 0, -1⟩ else ⟨0, 0, 1⟩)
      (fun i => if i = 0 then ⟨0, 0, -1, -1⟩ else ⟨0, 0, 1, 1⟩) 0 1 =
      some (projectTile
        ⟨⟨0, 0, 0⟩, ⟨0, 0, -1⟩, ⟨0, 0, 1⟩, ⟨0, 0, 1⟩, ⟨1, 0, 0⟩, ⟨0, 1, 0⟩,
          1, 1/100⟩
        (lerpPoint ⟨0, 0, 1⟩ ⟨2, 0, -1⟩ ((1 : ℚ) / (1 - -1))), (0, 0)) :=
  (stile_edge_clipping _ _ _ 0 1).2.1 (by norm_num) (by norm_num)

/-! ## C1: the advance phase of insert's sorter (engine.cpp lines 819-882)

After the new element `elm` is linked in as predecessor of the rest of
the (sub)list, phase 1 repeatedly compares `elm` with its successor
`nxt = bbox_sort(obj, elm, nxt)`:

* on `2` ("do swap") or `3` ("neutral"), `elm` is moved past `nxt`;
  the moved-past element's stored order value becomes `1` ("don't
  swap") for a swap, `3` for neutral; the previous moved-past element's
  stored value is restored from the `state` cache (its own old value)
  or recomputed against its new successor;
* on any other value (`1` "don't swap", `4` "unsortable") the phase
  stops and records the value in `elm`'s `data` field.

`bbox_sort` lives in `rtgeom.cpp` (not part of this translation unit)
and is taken as the opaque comparison `cmp`. -/

/-- Phase 1 continuation once `elm` has at least one predecessor `prv`
(the element most recently moved past); `state` caches `prv`'s original
stored order value.  Returns the elements that end up before `elm`, the
final `elm`, and the untouched rest of the list. -/
def phase1Aux (cmp : α → α → Int) (elm : E α) :
    Int → E α → List (E α) → List (E α) × E α × List (E α)
  | _, prv, [] => ([prv], elm, [])
  | state, prv, n :: rest =>
    let op := cmp elm.temp n.temp
    if op = 2 ∨ op = 3 then
      let prv' : E α :=
        ⟨prv.temp, if state ≠ 0 then state else cmp prv.temp n.temp⟩
      let n' : E α := ⟨n.temp, if op = 2 then 1 else op⟩
      let res := phase1Aux cmp elm n.data n' rest
      (prv' :: res.1, res.2)
    else
      ([prv], ⟨elm.temp, op⟩, n :: rest)

/-- Phase 1 of the sorter: push `elm` (initially linked as head) through
the list for as long as the comparison is non-strict. -/
def phase1 (cmp : α → α → Int) (elm : E α) :
    List (E α) → List (E α) × E α × List (E α)
  | [] => ([], elm, [])
  | n :: rest =>
    let op := cmp elm.temp n.temp
    if op = 2 ∨ op = 3 then
      let n' : E α := ⟨n.temp, if op = 2 then 1 else op⟩
      phase1Aux cmp elm n.data n' rest
    else
      ([], ⟨elm.temp, op⟩, n :: rest)

/-- The advance condition of phase 1: the comparison of `elm` with the
candidate successor is "do swap" or "neutral". -/
def advE (cmp : α → α → Int) (elm n : E α) : Bool :=
  cmp elm.temp n.temp == 2 || cmp elm.temp n.temp == 3

/-- The order value stored on a moved-past element: a "do swap" result
is stored as the strict "don't swap" code `1`, "neutral" stays `3`. -/
def recodeE (cmp : α → α → Int) (elm n : E α) : E α :=
  ⟨n.temp, if cmp elm.temp n.temp = 2 then 1 else cmp elm.temp n.temp⟩

theorem phase1Aux_ne_nil (cmp : α → α → Int) (elm : E α) (state : Int)
    (prv : E α) (rest : List (E α)) :
    (phase1Aux cmp elm state prv rest).1 ≠ [] := by
  cases rest with
  | nil => simp [phase1Aux]
  | cons n r =>
    rw [phase1Aux]
    split <;> simp

theorem phase1Aux_spec (cmp : α → α → Int) (elm : E α)
    (rest : List (E α)) :
    ∀ (state : Int) (prv : E α),
    (phase1Aux cmp elm state prv rest).2.2 =
      rest.dropWhile (advE cmp elm) ∧
    (phase1Aux cmp elm state prv rest).2.1.temp = elm.temp ∧
    (phase1Aux cmp elm state prv rest).2.1.data =
      (((rest.dropWhile (advE cmp elm)).head?.map
        (fun n => cmp elm.temp n.temp)).getD elm.data) ∧
    (phase1Aux cmp elm state prv rest).1.map E.temp =
      prv.temp :: (rest.takeWhile (advE cmp elm)).map E.temp ∧
    (rest.takeWhile (advE cmp elm) = [] →
      (phase1Aux cmp elm state prv rest).1.getLast? = some prv) ∧
    (rest.takeWhile (advE cmp elm) ≠ [] →
      (phase1Aux cmp elm state prv rest).1.getLast? =
        ((rest.takeWhile (advE cmp elm)).getLast?).map
          (recodeE cmp elm)) := by
  induction rest with
  | nil =>
    intro state prv
    simp [phase1Aux]
  | cons n rest ih =>
    intro state prv
    by_cases hop : cmp elm.temp n.temp = 2 ∨ cmp elm.temp n.temp = 3
    · have hadv : advE cmp elm n = true := by
        rcases hop with h | h <;> simp [advE, h]
      have hrw : phase1Aux cmp elm state prv (n :: rest) =
          (⟨prv.temp, if state ≠ 0 then state
              else cmp prv.temp n.temp⟩ ::
            (phase1Aux cmp elm n.data
              ⟨n.temp, if cmp elm.temp n.temp = 2 then 1
                else cmp elm.temp n.temp⟩ rest).1,
           (phase1Aux cmp elm n.data
              ⟨n.temp, if cmp elm.temp n.temp = 2 then 1
                else cmp elm.temp n.temp⟩ rest).2) := by
        rw [phase1Aux]
        simp only [if_pos hop]
      obtain ⟨ih1, ih2, ih3, ih4, ih5a, ih5b⟩ :=
        ih n.data ⟨n.temp, if cmp elm.temp n.temp = 2 then 1
          else cmp elm.temp n.temp⟩
      rw [hrw]
      refine ⟨?_, ih2, ?_, ?_, ?_, ?_⟩
      · rw [List.dropWhile_cons_of_pos hadv]
        exact ih1
      · rw [List.dropWhile_cons_of_pos hadv]
        exact ih3
      · rw [List.takeWhile_cons_of_pos hadv]
        simp only [List.map_cons]
        rw [ih4]
      · intro h
        rw [List.takeWhile_cons_of_pos hadv] at h
        simp at h
      · intro h
        rw [List.takeWhile_cons_of_pos hadv]
        obtain ⟨b, l', hbl⟩ := List.exists_cons_of_ne_nil
          (phase1Aux_ne_nil cmp elm n.data
            ⟨n.temp, if cmp elm.temp n.temp = 2 then 1
              else cmp elm.temp n.temp⟩ rest)
        rw [hbl, List.getLast?_cons_cons, ← hbl]
        by_cases hk : rest.takeWhile (advE cmp elm) = []
        · rw [ih5a hk, hk]
          simp [recodeE]
        · rw [ih5b hk]
          obtain ⟨c, m', hcm⟩ := List.exists_cons_of_ne_nil hk
          rw [hcm, List.getLast?_cons_cons, ← hcm]
    · have hadv : ¬ advE cmp elm n = true := by
        simp only [advE, Bool.or_eq_true, beq_iff_eq]
        exact hop
      have hrw : phase1Aux cmp elm state prv (n :: rest) =
          ([prv], ⟨elm.temp, cmp elm.temp n.temp⟩, n :: rest) := by
        rw [phase1Aux]
        simp only [if_neg hop]
      rw [hrw, List.dropWhile_cons_of_neg hadv,
        List.takeWhile_cons_of_neg hadv]
      simp

/-- C1: phase 1 of the sorter advances `elm` past exactly the maximal
prefix of successors whose comparison is SWAP (2) or NEUTRAL (3); the
element most recently moved past carries a SWAP result recoded as the
strict "don't swap" code 1 (NEUTRAL stays 3); the phase stops at the
first BEFORE (1) or UNORDERABLE (4) result, which is recorded in `elm`'s
order (`data`) field (`elm`'s `data` is untouched when the list end is
reached instead). -/
theorem phase1_advance_spec (cmp : α → α → Int) (elm : E α)
    (l : List (E α))
    (hcmp : ∀ n ∈ l, cmp elm.temp n.temp = 1 ∨ cmp elm.temp n.temp = 2 ∨
      cmp elm.temp n.temp = 3 ∨ cmp elm.temp n.temp = 4) :
    (∀ n ∈ l.takeWhile (advE cmp elm),
      cmp elm.temp n.temp = 2 ∨ cmp elm.temp n.temp = 3) ∧
    (∀ n, (l.dropWhile (advE cmp elm)).head? = some n →
      cmp elm.temp n.temp = 1 ∨ cmp elm.temp n.temp = 4) ∧
    (phase1 cmp elm l).2.2 = l.dropWhile (advE cmp elm) ∧
    (phase1 cmp elm l).2.1.temp = elm.temp ∧
    (phase1 cmp elm l).2.1.data =
      (((l.dropWhile (advE cmp elm)).head?.map
        (fun n => cmp elm.temp n.temp)).getD elm.data) ∧
    (phase1 cmp elm l).1.map E.temp =
      (l.takeWhile (advE cmp elm)).map E.temp ∧
    (phase1 cmp elm l).1.getLast? =
      ((l.takeWhile (advE cmp elm)).getLast?).map (recodeE cmp elm) := by
  have hmoved : ∀ n ∈ l.takeWhile (advE cmp elm),
      cmp elm.temp n.temp = 2 ∨ cmp elm.temp n.temp = 3 := by
    intro n hn
    have := List.mem_takeWhile_imp hn
    simp only [advE, Bool.or_eq_true, beq_iff_eq] at this
    exact this
  have hstop : ∀ n, (l.dropWhile (advE cmp elm)).head? = some n →
      cmp elm.temp n.temp = 1 ∨ cmp elm.temp n.temp = 4 := by
    intro n hn
    have hmem : n ∈ l.dropWhile (advE cmp elm) := by
      cases hd : l.dropWhile (advE cmp elm) with
      | nil => rw [hd] at hn; simp at hn
      | cons a r =>
        rw [hd] at hn
        simp only [List.head?_cons, Option.some.injEq] at hn
        subst hn
        exact List.mem_cons_self _ _
    have hinl : n ∈ l := List.dropWhile_subset _ hmem
    have hne := List.head?_dropWhile_not (advE cmp elm) l
    rw [hn] at hne
    simp only [Option.all_some] at hne
    have : advE cmp elm n = false := by
      cases h : advE cmp elm n
      · rfl
      · rw [h] at hne; simp at hne
    simp only [advE, Bool.or_eq_false_iff, beq_eq_false_iff_ne] at this
    rcases hcmp n hinl with h | h | h | h
    · exact Or.inl h
    · exact absurd h this.1
    · exact absurd h this.2
    · exact Or.inr h
  cases l with
  | nil =>
    refine ⟨hmoved, hstop, ?_⟩
    simp [phase1]
  | cons n rest =>
    by_cases hop : cmp elm.temp n.temp = 2 ∨ cmp elm.temp n.temp = 3
    · have hadv : advE cmp elm n = true := by
        rcases hop with h | h <;> simp [advE, h]
      have hrw : phase1 cmp elm (n :: rest) =
          phase1Aux cmp elm n.data
            ⟨n.temp, if cmp elm.temp n.temp = 2 then 1
              else cmp elm.temp n.temp⟩ rest := by
        rw [phase1]
        simp only [if_pos hop]
      obtain ⟨ih1, ih2, ih3, ih4, ih5a, ih5b⟩ :=
        phase1Aux_spec cmp elm rest n.data
        ⟨n.temp, if cmp elm.temp n.temp = 2 then 1 else cmp elm.temp n.temp⟩
      refine ⟨hmoved, hstop, ?_, ?_, ?_, ?_, ?_⟩ <;> rw [hrw]
      · rw [ih1, List.dropWhile_cons_of_pos hadv]
      · exact ih2
      · rw [ih3, List.dropWhile_cons_of_pos hadv]
      · rw [ih4, List.takeWhile_cons_of_pos hadv]
        simp
      · rw [List.takeWhile_cons_of_pos hadv]
        by_cases hk : rest.takeWhile (advE cmp elm) = []
        · rw [ih5a hk, hk]
          simp [recodeE]
        · rw [ih5b hk]
          obtain ⟨c, m', hcm⟩ := List.exists_cons_of_ne_nil hk
          rw [hcm, List.getLast?_cons_cons, ← hcm]
    · have hadv : ¬ advE cmp elm n = true := by
        simp only [advE, Bool.or_eq_true, beq_iff_eq]
        exact hop
      have hrw : phase1 cmp elm (n :: rest) =
          ([], ⟨elm.temp, cmp elm.temp n.temp⟩, n :: rest) := by
        rw [phase1]
        simp only [if_neg hop]
      refine ⟨hmoved, hstop, ?_, ?_, ?_, ?_, ?_⟩ <;>
        simp [hrw, List.dropWhile_cons_of_neg hadv,
          List.takeWhile_cons_of_neg hadv]

/-- Witness for C1: one NEUTRAL advance followed by a BEFORE stop. -/
theorem phase1_advance_spec_witness :
    (phase1 (fun x y => if x = 0 ∧ y = 1 then 3 else 1)
      (⟨0, 0⟩ : E Nat) [⟨1, 0⟩, ⟨2, 0⟩]).2.2 =
      [(⟨1, 0⟩ : E Nat), ⟨2, 0⟩].dropWhile
        (advE (fun x y => if x = 0 ∧ y = 1 then 3 else 1) ⟨0, 0⟩) :=
  (phase1_advance_spec (fun x y => if x = 0 ∧ y = 1 then 3 else 1)
    ⟨0, 0⟩ [⟨1, 0⟩, ⟨2, 0⟩] (by decide)).2.2.1

/-! ## C9: phases 2-3 and stability of the incremental insertion sort
(engine.cpp lines 878-1113)

Phase 2 finds the `end` of the strict-order-chain from `elm` (stored
order values `1` "don't swap" and `4` "unsortable" are strict).  Phase 3
scans the remainder with `nxt`, growing a strict-order-chain ("comb")
from `tlp->next` up to `nxt`; on a "do swap" result against `elm` the
tail area between `end` and `tlp` is combed backwards (elements strictly
ordered against the comb are spliced into it) and the comb is moved in
front of `elm`, reusing cached order values where possible.

The linked list is represented by segments:
`P` (elements before `elm`), `G` (`elm` and its strict chain, up to but
excluding `end`), `endE`, the tail `T` (`end->next .. tlp`), the comb
`K` (`tlp->next ..` scan position) and the unscanned rest; the full
list is `P ++ G ++ endE :: T ++ K ++ rest`. -/

/-- Set the last element's stored order value to 0 (`tlp->data = 0`). -/
def zeroLast : List (E α) → List (E α)
  | [] => []
  | [e] => [⟨e.temp, 0⟩]
  | e :: rest => e :: zeroLast rest

/-- Repair the last element's stored order value against its successor
`succ0` when it is 0 (`if (tlp->data == 0) tlp->data = ...`). -/
def repairLast (cmp : α → α → Int) (succ0 : E α) : List (E α) → List (E α)
  | [] => []
  | [e] => if e.data = 0 then [⟨e.temp, cmp e.temp succ0.temp⟩] else [e]
  | e :: rest => e :: repairLast cmp succ0 rest

/-- The inner `jpt` scan of the combing stage (engine.cpp lines
926-972): compare the tail element `cur` against the comb chain
elements in order, reusing `cur`'s stored value (when `cur` is `tlp`)
or the local cache `lstate` for the first comb element, repairing
`cur`'s stored value (when `cur` is `tlp`) or `lstate` as it goes, and
stopping at the first strict result.  Returns (strict found, updated
`cur`, updated `lstate`). -/
def combScan (cmp : α → α → Int) (isTlp : Bool) :
    E α → Int → Bool → List (E α) → Bool × E α × Int
  | cur, lstate, _, [] => (false, cur, lstate)
  | cur, lstate, first, jel :: js =>
    let op :=
      if first && isTlp && cur.data != 0 then cur.data
      else if first && lstate != 0 then lstate
      else cmp cur.temp jel.temp
    let cur' := if first && isTlp then ⟨cur.temp, op⟩ else cur
    let lst' := if first && !isTlp then op else lstate
    if op = 1 ∨ op = 4 then (true, cur', lst')
    else combScan cmp isTlp cur' lst' false js

/-- The backward combing run over the tail (engine.cpp lines 910-1023),
processing the tail from `tlp` back to `end` (the input is the reversed
tail).  `pz` marks that the current element's stored value was zeroed
by the preceding splice (`ipt->data = 0`); `endD` is `end`'s stored
value, read when the first tail element is spliced out.  `Tacc` holds
the elements that stayed, `K` the comb grown so far.  Returns (whether
`end`'s stored value was zeroed, the remaining tail, the comb, the
local cache, the `gr` flag). -/
def combTail (cmp : α → α → Int) (nxtE : E α) (endD : Int) :
    List (E α) → Bool → List (E α) → List (E α) → Int → Bool →
    Bool × List (E α) × List (E α) × Int × Bool
  | [], pz, Tacc, K, lstate, gr => (pz, Tacc, K, lstate, gr)
  | cur :: left, pz, Tacc, K, lstate, gr =>
    let cur0 := if pz then ⟨cur.temp, 0⟩ else cur
    let isTlp := Tacc.isEmpty
    match combScan cmp isTlp cur0 lstate true (K ++ [nxtE]) with
    | (mv, cur1, ls1) =>
      if mv then
        if isTlp then
          -- "cur == tlp": the tail shrinks by one, tlp retreats
          combTail cmp nxtE endD left false Tacc (cur1 :: K) ls1 true
        else
          -- splice cur out of the tail to the front of the comb
          let iel : E α := ⟨cur1.temp, ls1⟩
          let prevD := match left with
            | [] => endD
            | p :: _ => p.data
          combTail cmp nxtE endD left true (zeroLast Tacc) (iel :: K)
            prevD true
      else
        -- cur stays; repair its stored value against its successor
        let cur2 :=
          if cur1.data = 0 then
            match Tacc ++ K ++ [nxtE] with
            | [] => cur1
            | s :: _ => ⟨cur1.temp, cmp cur1.temp s.temp⟩
          else cur1
        combTail cmp nxtE endD left false (cur2 :: Tacc) K 0 gr

/-- The segment state of phase 3. -/
structure P3 (α : Type) where
  P : List (E α)
  G : List (E α)
  endE : E α
  T : List (E α)
  K : List (E α)
  st : Int

/-- The phase-3 scan loop (engine.cpp lines 887-1103). -/
def phase3Go (cmp : α → α → Int) (elmT : α) :
    P3 α → List (E α) → P3 α
  | s, [] => s
  | s, nxtE :: R =>
    let op := cmp elmT nxtE.temp
    if op = 2 then
      -- comb the tail, then move the comb and nxt in front of elm
      match (if s.T.isEmpty then (false, s.T, s.K, 0, false)
        else combTail cmp nxtE s.endE.data s.T.reverse false [] s.K
          0 false) with
      | (pzEnd, T', K', _, gr) =>
        let endE1 := if pzEnd then ⟨s.endE.temp, 0⟩ else s.endE
        -- repair end's stored value after combing (lines 1024-1031)
        let endE2 :=
          if ¬ s.T.isEmpty ∧ endE1.data = 0 then
            match T' ++ K' ++ [nxtE] with
            | [] => endE1
            | sf :: _ => ⟨endE1.temp, cmp endE1.temp sf.temp⟩
          else endE1
        let st1 := if gr then 0 else s.st
        let moved := K' ++ [(⟨nxtE.temp, 1⟩ : E α)]
        let P' :=
          match s.P.getLast? with
          | none => s.P ++ moved
          | some prv =>
            s.P.dropLast ++
              ⟨prv.temp,
                if st1 ≠ 0 then st1
                else cmp prv.temp ((moved.headD ⟨nxtE.temp, 1⟩).temp)⟩ ::
                moved
        -- tlp->data = 0 (line 1060); tlp is endE when the tail is empty
        let endE3 := if T'.isEmpty then (⟨endE2.temp, 0⟩ : E α) else endE2
        let T3 := if T'.isEmpty then T' else zeroLast T'
        phase3Go cmp elmT ⟨P', s.G, endE3, T3, [], nxtE.data⟩ R
    else
      if nxtE.data ≠ 1 ∧ nxtE.data ≠ 4 then
        -- nxt's stored value is non-strict: repair tlp, catch up
        let succ0 := (s.K ++ [nxtE]).headD nxtE
        let endE' :=
          if s.T.isEmpty ∧ s.endE.data = 0 then
            (⟨s.endE.temp, cmp s.endE.temp succ0.temp⟩ : E α)
          else s.endE
        let T' := if s.T.isEmpty then s.T else repairLast cmp succ0 s.T
        phase3Go cmp elmT ⟨s.P, s.G, endE', T' ++ s.K ++ [nxtE], [], 0⟩ R
      else
        -- nxt extends the strict-order-chain (the comb)
        phase3Go cmp elmT ⟨s.P, s.G, s.endE, s.T, s.K ++ [nxtE], s.st⟩ R

/-- The trailing repair after the scan (engine.cpp lines 1104-1111) and
reassembly of the flat list. -/
def phase3Finish (cmp : α → α → Int) (s : P3 α) : List (E α) :=
  let tail :=
    match s.K.head? with
    | none => s.endE :: s.T
    | some c =>
      if s.T.isEmpty then
        (if s.endE.data = 0 then (⟨s.endE.temp, cmp s.endE.temp c.temp⟩ : E α)
         else s.endE) :: s.T
      else s.endE :: repairLast cmp c s.T
  s.P ++ s.G ++ tail ++ s.K

/-- The whole sorting routine of `insert` (engine.cpp lines 819-1113):
phase 1 (advance `elm`), phase 2 (find `end`), phase 3 (comb and move).
When every stored order value from `elm` onward is strict, the C walk
of phase 2 would run past the list end; that cannot arise from the
values the routine itself stores (the final element's stored value is
never strict), and the embedding returns the list unchanged. -/
def insertSort (cmp : α → α → Int) (elm : E α) (l : List (E α)) :
    List (E α) :=
  match phase1 cmp elm l with
  | (pre, elm', rest) =>
    match (elm' :: rest).dropWhile (fun e => e.data == 1 || e.data == 4) with
    | [] => pre ++ elm' :: rest
    | endE :: rest2 =>
      phase3Finish cmp
        (phase3Go cmp elm'.temp
          ⟨pre, (elm' :: rest).takeWhile (fun e => e.data == 1 || e.data == 4),
            endE, [], [], 0⟩
          rest2)

/-- The element allocated by `insert` for a new candidate ("data = 0"). -/
def newElem (x : α) : E α := ⟨x, 0⟩

/-- Inserting a sequence of candidates one by one into an initially
empty list slot, each insertion running the full sorter. -/
def insertAll (cmp : α → α → Int) (xs : List α) : List (E α) :=
  xs.foldl (fun l x => insertSort cmp (newElem x) l) []

/-- The list shape maintained by all-neutral insertions: every element
stores order value 3 against its successor, the final element 0. -/
def allNeutralShape : List α → List (E α)
  | [] => []
  | [x] => [⟨x, 0⟩]
  | x :: y :: rest => ⟨x, 3⟩ :: allNeutralShape (y :: rest)

theorem allNeutralShape_append_last (ys : List α) (x : α) :
    allNeutralShape (ys ++ [x]) =
      ys.map (fun y => (⟨y, 3⟩ : E α)) ++ [⟨x, 0⟩] := by
  induction ys with
  | nil => simp [allNeutralShape]
  | cons y rest ih =>
    cases rest with
    | nil => simp [allNeutralShape]
    | cons z rest' =>
      have h1 : allNeutralShape ((y :: z :: rest') ++ [x]) =
          ⟨y, 3⟩ :: allNeutralShape ((z :: rest') ++ [x]) := rfl
      rw [h1, ih]
      simp

theorem phase1Aux_all_neutral (cmp : α → α → Int) (x : α) :
    ∀ ys : List α, (∀ y ∈ ys, cmp x y = 3) → ∀ p : α,
    phase1Aux cmp ⟨x, 0⟩ 3 ⟨p, 3⟩ (allNeutralShape ys) =
      (⟨p, 3⟩ :: ys.map (fun y => (⟨y, 3⟩ : E α)), (⟨x, 0⟩ : E α),
        ([] : List (E α))) := by
  intro ys
  induction ys with
  | nil =>
    intro _ p
    simp [allNeutralShape, phase1Aux]
  | cons y rest ih =>
    intro hn p
    have hy : cmp x y = 3 := hn y (List.mem_cons_self _ _)
    cases rest with
    | nil =>
      rw [show allNeutralShape [y] = [⟨y, 0⟩] from rfl, phase1Aux,
        if_pos (Or.inr hy)]
      simp [phase1Aux, hy]
    | cons z rest' =>
      rw [show allNeutralShape (y :: z :: rest') =
        ⟨y, 3⟩ :: allNeutralShape (z :: rest') from rfl, phase1Aux,
        if_pos (Or.inr hy)]
      have ih' := ih (fun w hw => hn w (List.mem_cons_of_mem _ hw)) y
      simp [hy, ih']

theorem phase1_all_neutral (cmp : α → α → Int) (x : α) (ys : List α)
    (hn : ∀ y ∈ ys, cmp x y = 3) :
    phase1 cmp ⟨x, 0⟩ (allNeutralShape ys) =
      (ys.map (fun y => (⟨y, 3⟩ : E α)), (⟨x, 0⟩ : E α),
        ([] : List (E α))) := by
  cases ys with
  | nil => simp [allNeutralShape, phase1]
  | cons y rest =>
    have hy : cmp x y = 3 := hn y (List.mem_cons_self _ _)
    cases rest with
    | nil =>
      rw [show allNeutralShape [y] = [⟨y, 0⟩] from rfl, phase1,
        if_pos (Or.inr hy)]
      simp [phase1Aux, hy]
    | cons z rest' =>
      rw [show allNeutralShape (y :: z :: rest') =
        ⟨y, 3⟩ :: allNeutralShape (z :: rest') from rfl, phase1,
        if_pos (Or.inr hy)]
      have haux := phase1Aux_all_neutral cmp x (z :: rest')
        (fun w hw => hn w (List.mem_cons_of_mem _ hw)) y
      simp [hy, haux]

theorem allNeutralShape_temps (l : List α) :
    (allNeutralShape l).map E.temp = l := by
  induction l with
  | nil => simp [allNeutralShape]
  | cons x rest ih =>
    cases rest with
    | nil => simp [allNeutralShape]
    | cons y rest' =>
      rw [show allNeutralShape (x :: y :: rest') =
        ⟨x, 3⟩ :: allNeutralShape (y :: rest') from rfl]
      simp only [List.map_cons, ih]

/-- One all-neutral insertion appends the new element at the list end
(phase 1 pushes it through everything; phases 2-3 are no-ops as the
scan starts at the list end). -/
theorem insertSort_all_neutral (cmp : α → α → Int) (x : α) (ys : List α)
    (hn : ∀ y ∈ ys, cmp x y = 3) :
    insertSort cmp (newElem x) (allNeutralShape ys) =
      allNeutralShape (ys ++ [x]) := by
  rw [insertSort, newElem, phase1_all_neutral cmp x ys hn,
    allNeutralShape_append_last]
  simp [phase3Go, phase3Finish]

/-- C9: the incremental insertion sort is stable on mutually NEUTRAL
candidates: inserting any sequence of candidates, all of whose pairwise
comparisons are NEUTRAL (3), one by one into an initially empty slot
yields exactly the arrival order, so any two such candidates retain
their relative arrival order in the final list. -/
theorem insertAll_neutral_stable (cmp : α → α → Int) (xs : List α)
    (hneutral : ∀ x ∈ xs, ∀ y ∈ xs, cmp x y = 3) :
    (insertAll cmp xs).map E.temp = xs := by
  have key : ∀ done rest : List α,
      (∀ x ∈ rest, ∀ y ∈ done, cmp x y = 3) →
      (∀ x ∈ rest, ∀ y ∈ rest, cmp x y = 3) →
      rest.foldl (fun l x => insertSort cmp (newElem x) l)
        (allNeutralShape done) = allNeutralShape (done ++ rest) := by
    intro done rest
    induction rest generalizing done with
    | nil =>
      intro _ _
      simp
    | cons x rest' ih =>
      intro h1 h2
      rw [List.foldl_cons,
        insertSort_all_neutral cmp x done
          (fun y hy => h1 x (List.mem_cons_self _ _) y hy)]
      rw [show done ++ x :: rest' = (done ++ [x]) ++ rest' by simp]
      exact ih (done ++ [x])
        (fun w hw y hy => by
          rcases List.mem_append.mp hy with hy | hy
          · exact h1 w (List.mem_cons_of_mem _ hw) y hy
          · simp only [List.mem_singleton] at hy
            subst hy
            exact h2 w (List.mem_cons_of_mem _ hw) y
              (List.mem_cons_self _ _))
        (fun w hw y hy => h2 w (List.mem_cons_of_mem _ hw) y
          (List.mem_cons_of_mem _ hy))
  have hk := key [] xs (by simp) hneutral
  simp only [List.nil_append] at hk
  rw [show allNeutralShape ([] : List α) = [] from rfl] at hk
  rw [insertAll, hk, allNeutralShape_temps]

/-- Witness for C9: three mutually neutral candidates come out in
arrival order. -/
theorem insertAll_neutral_stable_witness :
    (insertAll (fun _ _ => 3) [10, 20, 30]).map E.temp =
      [10, 20, 30] :=
  insertAll_neutral_stable (fun _ _ => (3 : Int)) [10, 20, 30]
    (fun _ _ _ _ => rfl)

/-- A comparison within the documented contract of the order predicate
(values in 1..4): the only strict result is 40-before-10, the only
swap is "move 30 in front of 40"; every comparison involving 20 or 30,
in both directions, is non-strict. -/
def cmpCex : Nat → Nat → Int := fun x y =>
  if x = 40 ∧ y = 10 then 1 else if x = 40 ∧ y = 30 then 2 else 3

/-- C9 fails as literally stated: candidates 20 and 30 are mutually
NEUTRAL and neither is strictly ordered (in either direction) against
any other candidate, yet after the arrival sequence 10, 20, 30, 40 the
final list is 30, 40, 10, 20 - candidate 30 has moved in front of its
earlier-arrived NEUTRAL partner 20.  Inserting 40, phase 1 stops at the
strict result against 10; the phase-3 scan then hits the SWAP against
30 and relocates 30 in front of 40 (engine.cpp lines 1039-1070),
jumping it past 20, which stays in the tail because it is neutral to
everything.  (Hand-checked against the C routine: the trace performs
the same pointer moves.) -/
theorem insert_neutral_pair_flips :
    cmpCex 20 30 = 3 ∧ cmpCex 30 20 = 3 ∧
    cmpCex 10 20 = 3 ∧ cmpCex 20 10 = 3 ∧
    cmpCex 40 20 = 3 ∧ cmpCex 20 40 = 3 ∧
    cmpCex 10 30 = 3 ∧ cmpCex 30 10 = 3 ∧
    cmpCex 40 30 = 2 ∧ cmpCex 30 40 = 3 ∧
    (insertAll cmpCex [10, 20, 30, 40]).map E.temp = [30, 40, 10, 20] := by
  decide

end QuadRay
